import Mathlib

set_option maxRecDepth 8000

namespace S3DL

/-! Shallow embedding of psalmeight/s3downloader (src/main.go).

The program mirrors a subtree of an S3 bucket onto the local filesystem:
`collectRecursive` walks the delimited namespace collecting keys ending in
".json.gz", and `downloadFiles` downloads each key to `localDir ++ key`
under a 20-permit semaphore.  Bytes are modelled as `List Nat`, local paths
as lists of segments, and the remote store's paginated listing responses as
a finite tree. -/

/-- Bytes of a file or remote object, one entry per byte. -/
abbrev Bytes := List Nat

/-- A local filesystem path, as a list of path segments. -/
abbrev Path := List String

/-- Embeds Go `strings.HasSuffix` (src/main.go line 90), stated over reversed
character lists so that it computes by structural recursion.  For the ASCII
pattern ".json.gz" a byte-level suffix in Go coincides with a character-level
suffix, because UTF-8 is self-synchronizing. -/
def hasSuffix (s pat : String) : Bool :=
  pat.data.reverse.isPrefixOf s.data.reverse

/-- The suffix filter hard-coded in the enumerator (src/main.go line 90). -/
def jsonGzSuffix : String := ".json.gz"

/-- Splits a character list at '/' delimiters (always returns at least one,
possibly empty, segment). -/
def splitChars : List Char → List (List Char)
  | [] => [[]]
  | c :: rest =>
    match splitChars rest with
    | [] => [[]]
    | seg :: segs => if c = '/' then [] :: seg :: segs else (c :: seg) :: segs

/-- The path segments of an object key.  Empty segments are dropped, mirroring
the path cleaning done by Go `filepath.Join` (src/main.go line 112); cleaning
of "." and ".." segments is outside the model, as S3 listing keys do not
contain them. -/
def keySegs (key : String) : Path :=
  ((splitChars key.data).filter (fun seg => seg ≠ [])).map (fun seg => String.mk seg)

/-- Removes the last `n` characters of a string (used to strip the ".gz"
extension of a compressed file name). -/
def dropRightN (s : String) (n : Nat) : String :=
  String.mk ((s.data.reverse.drop n).reverse)

/-! The remote namespace.

`collectRecursive` (src/main.go lines 70-97) issues a delimited, paginated
`ListObjectsV2` request for a prefix and walks the responses.  The listing
responses are modelled as a finite tree: every prefix has the list of pages
its paginator yields; each page carries the CommonPrefixes (each with the
prefix string passed to the recursive call, and its own subtree of
responses) and the Contents (leaf object keys).  A prefix string has no
semantics of its own in the model beyond selecting a subtree and appearing
in log lines. -/

mutual
/-- Listing responses for one prefix: the sequence of pages its paginator
yields (src/main.go lines 77-96). -/
inductive STree where
  | node : SPageList → STree
/-- The pages returned for one prefix, in order.  `err` models
`paginator.NextPage` returning an error (src/main.go lines 79-83); pages
after an error are never fetched, so none are represented. -/
inductive SPageList where
  | nil : SPageList
  | err : String → SPageList
  | cons : SChildren → List String → SPageList → SPageList
/-- The CommonPrefixes of one page: each carries the prefix string passed to
the recursive call and the subtree of listing responses below it. -/
inductive SChildren where
  | nil : SChildren
  | cons : String → STree → SChildren → SChildren
end

mutual
/-- Embeds `collectRecursive` (src/main.go lines 70-97), restricted to the
key accumulation effect: the Go function appends matching keys to `*keys`.
Its log output is modelled separately by `collectLogs`, and the debug
`fmt.Println` on stdout (line 93) is not modelled. -/
def collectRecursive : STree → List String → List String
  | .node ps, acc => collectPages ps acc
/-- Processes the pages of one prefix in order.  On a listing error the Go
function logs and returns (src/main.go lines 81-82), keeping the keys
accumulated so far and fetching no further pages for this prefix. -/
def collectPages : SPageList → List String → List String
  | .nil, acc => acc
  | .err _, acc => acc
  | .cons cs conts rest, acc =>
    collectPages rest
      ((collectChildren cs acc) ++ conts.filter (fun k => hasSuffix k jsonGzSuffix))
/-- Recurses into each common prefix of a page in order (src/main.go
lines 85-87); this runs before the Contents of the page are filtered. -/
def collectChildren : SChildren → List String → List String
  | .nil, acc => acc
  | .cons _ t rest, acc => collectChildren rest (collectRecursive t acc)
end

mutual
/-- The `log.Printf` lines emitted while enumerating the subtree of the given
prefix (src/main.go line 81). -/
def collectLogs : String → STree → List String
  | pfx, .node ps => pagesLogs pfx ps
def pagesLogs : String → SPageList → List String
  | _, .nil => []
  | pfx, .err e => ["Error listing " ++ pfx ++ ": " ++ e]
  | pfx, .cons cs _ rest => childrenLogs cs ++ pagesLogs pfx rest
def childrenLogs : SChildren → List String
  | .nil => []
  | .cons name t rest => collectLogs name t ++ childrenLogs rest
end

mutual
/-- All leaf object keys in a subtree, unfiltered, in traversal order (the
semantic content of the namespace, independent of pagination). -/
def leavesTree : STree → List String
  | .node ps => leavesPages ps
def leavesPages : SPageList → List String
  | .nil => []
  | .err _ => []
  | .cons cs conts rest => leavesChildren cs ++ conts ++ leavesPages rest
def leavesChildren : SChildren → List String
  | .nil => []
  | .cons _ t rest => leavesTree t ++ leavesChildren rest
end

mutual
/-- No listing call anywhere in the subtree fails. -/
def errFreeTree : STree → Bool
  | .node ps => errFreePages ps
def errFreePages : SPageList → Bool
  | .nil => true
  | .err _ => false
  | .cons cs _ rest => errFreeChildren cs && errFreePages rest
def errFreeChildren : SChildren → Bool
  | .nil => true
  | .cons _ t rest => errFreeTree t && errFreeChildren rest
end

/-- Appends `q` after the last page of `ps`; an error page absorbs, since
pages after an error are never fetched. -/
def appendPages : SPageList → SPageList → SPageList
  | .nil, q => q
  | .err e, _ => .err e
  | .cons cs conts rest, q => .cons cs conts (appendPages rest q)

/-- True when the page spine of `ps` ends in `nil`, i.e. there is no listing
error at this level (errors inside child subtrees are still allowed). -/
def nilTerminated : SPageList → Bool
  | .nil => true
  | .err _ => false
  | .cons _ _ rest => nilTerminated rest

mutual
/-- The accumulator is only ever appended to by the tree walk. -/
theorem collectRecursive_acc (t : STree) (acc : List String) :
    collectRecursive t acc = acc ++ collectRecursive t [] := by
  cases t with
  | node ps => simp only [collectRecursive]; exact collectPages_acc ps acc

theorem collectPages_acc (ps : SPageList) (acc : List String) :
    collectPages ps acc = acc ++ collectPages ps [] := by
  cases ps with
  | nil => simp [collectPages]
  | err e => simp [collectPages]
  | cons cs conts rest =>
    simp only [collectPages]
    rw [collectChildren_acc cs acc,
      collectPages_acc rest (acc ++ collectChildren cs [] ++ _),
      collectPages_acc rest (collectChildren cs [] ++ _)]
    simp

theorem collectChildren_acc (cs : SChildren) (acc : List String) :
    collectChildren cs acc = acc ++ collectChildren cs [] := by
  cases cs with
  | nil => simp [collectChildren]
  | cons name t rest =>
    simp only [collectChildren]
    rw [collectRecursive_acc t acc,
      collectChildren_acc rest (acc ++ collectRecursive t []),
      collectChildren_acc rest (collectRecursive t [])]
    simp
end

/-- Pages appended after an error page are never processed, and the error
page itself contributes nothing; earlier pages are unaffected. -/
theorem collectPages_append_err (ps : SPageList) (e : String) (acc : List String) :
    collectPages (appendPages ps (.err e)) acc = collectPages ps acc := by
  cases ps with
  | nil => simp [appendPages, collectPages]
  | err m => simp [appendPages, collectPages]
  | cons cs conts rest =>
    simp only [appendPages, collectPages]
    exact collectPages_append_err rest e _

/-- A listing error at a prefix whose earlier pages succeeded adds exactly
one log line for that prefix, after the logs of the subtrees already
visited. -/
theorem pagesLogs_append_err (ps : SPageList) (e pfx : String)
    (h : nilTerminated ps = true) :
    pagesLogs pfx (appendPages ps (.err e)) =
      pagesLogs pfx ps ++ ["Error listing " ++ pfx ++ ": " ++ e] := by
  cases ps with
  | nil => simp [appendPages, pagesLogs]
  | err m => simp [nilTerminated] at h
  | cons cs conts rest =>
    simp only [nilTerminated] at h
    simp only [appendPages, pagesLogs, pagesLogs_append_err rest e pfx h,
      List.append_assoc]

mutual
/-- On an error-free subtree the walk collects exactly the leaf keys that
match the ".json.gz" suffix filter, in traversal order. -/
theorem collectRecursive_eq_filter (t : STree) (h : errFreeTree t = true) :
    collectRecursive t [] = (leavesTree t).filter (fun k => hasSuffix k jsonGzSuffix) := by
  cases t with
  | node ps =>
    simp only [collectRecursive, leavesTree]
    exact collectPages_eq_filter ps (by simpa [errFreeTree] using h)

theorem collectPages_eq_filter (ps : SPageList) (h : errFreePages ps = true) :
    collectPages ps [] = (leavesPages ps).filter (fun k => hasSuffix k jsonGzSuffix) := by
  cases ps with
  | nil => simp [collectPages, leavesPages]
  | err e => simp [errFreePages] at h
  | cons cs conts rest =>
    simp only [errFreePages, Bool.and_eq_true] at h
    simp only [collectPages, leavesPages]
    rw [collectPages_acc rest, collectChildren_eq_filter cs h.1,
      collectPages_eq_filter rest h.2]
    simp [List.filter_append]

theorem collectChildren_eq_filter (cs : SChildren) (h : errFreeChildren cs = true) :
    collectChildren cs [] = (leavesChildren cs).filter (fun k => hasSuffix k jsonGzSuffix) := by
  cases cs with
  | nil => simp [collectChildren, leavesChildren]
  | cons name t rest =>
    simp only [errFreeChildren, Bool.and_eq_true] at h
    simp only [collectChildren, leavesChildren]
    rw [collectChildren_acc rest, collectRecursive_eq_filter t h.1,
      collectChildren_eq_filter rest h.2]
    simp [List.filter_append]
end

/-- The tree of the spec's enumeration scenario: a root page whose only
common prefix is "a/"; under it one page with common prefix "a/b/" and
contents "a/x.json.gz" and "a/z.txt"; under "a/b/" one page with contents
"a/b/y.json.gz". -/
def scenarioTree : STree :=
  .node (.cons
    (.cons "a/"
      (.node (.cons
        (.cons "a/b/" (.node (.cons .nil ["a/b/y.json.gz"] .nil)) .nil)
        ["a/x.json.gz", "a/z.txt"] .nil))
      .nil)
    [] .nil)

/-- C2: for every namespace tree whose listing calls all succeed, the
Enumerator's result is exactly the leaf keys of the subtree that end in
".json.gz", however the store splits them across pages and hierarchy levels:
the result equals the suffix-filtered leaf list, and any two error-free
trees with the same leaves (as a multiset) yield the same result (as a
multiset).  The walk is a total function, so the full collection is produced
only when the recursive walk completes. -/
theorem enumerator_pagination_transparent (t : STree) (h : errFreeTree t = true) :
    collectRecursive t [] = (leavesTree t).filter (fun k => hasSuffix k jsonGzSuffix) ∧
    ∀ t₂ : STree, errFreeTree t₂ = true → (leavesTree t).Perm (leavesTree t₂) →
      (collectRecursive t []).Perm (collectRecursive t₂ []) := by
  refine ⟨collectRecursive_eq_filter t h, ?_⟩
  intro t₂ h₂ hp
  rw [collectRecursive_eq_filter t h, collectRecursive_eq_filter t₂ h₂]
  exact hp.filter _

/-- Witness for C2 at the spec's scenario tree. -/
theorem enumerator_pagination_transparent_witness :
    collectRecursive scenarioTree [] =
      (leavesTree scenarioTree).filter (fun k => hasSuffix k jsonGzSuffix) ∧
    ∀ t₂ : STree, errFreeTree t₂ = true →
      (leavesTree scenarioTree).Perm (leavesTree t₂) →
      (collectRecursive scenarioTree []).Perm (collectRecursive t₂ []) :=
  enumerator_pagination_transparent scenarioTree (by decide)

/-- C7: a failed listing call is scoped to its subtree.  For a prefix whose
pages `ps` succeeded and whose next page fetch fails: (1) the keys collected
are exactly those of the successful pages — the error page and everything
beneath the unexplored remainder contribute nothing, and nothing is thrown
(the function totally returns the partial accumulator to its caller);
(2) within a parent page, a failing child contributes its partial result and
the following sibling subtrees are still processed on top of it; (3) the
failure is logged for that prefix after the logs of the subtrees already
visited. -/
theorem enumerator_error_scoped (ps : SPageList) (e pfx sib : String)
    (t₂ : STree) (rest : SChildren) (acc : List String)
    (h : nilTerminated ps = true) :
    collectPages (appendPages ps (.err e)) acc = collectPages ps acc ∧
    collectChildren
        (SChildren.cons pfx (STree.node (appendPages ps (.err e)))
          (SChildren.cons sib t₂ rest)) acc =
      collectChildren (SChildren.cons sib t₂ rest) (collectPages ps acc) ∧
    collectLogs pfx (STree.node (appendPages ps (.err e))) =
      collectLogs pfx (STree.node ps) ++ ["Error listing " ++ pfx ++ ": " ++ e] := by
  refine ⟨collectPages_append_err ps e acc, ?_, ?_⟩
  · simp only [collectChildren, collectRecursive]
    rw [collectPages_append_err ps e acc]
  · simp only [collectLogs]
    exact pagesLogs_append_err ps e pfx h

/-- Witness for C7: a concrete prefix with one successful page (one matching
key and one child) whose second page fetch fails, next to one sibling. -/
theorem enumerator_error_scoped_witness :
    collectPages
        (appendPages (.cons .nil ["p/a.json.gz"] .nil) (.err "boom"))
        ["seen.json.gz"] =
      collectPages (.cons .nil ["p/a.json.gz"] .nil) ["seen.json.gz"] ∧
    collectChildren
        (SChildren.cons "p/"
          (STree.node (appendPages (.cons .nil ["p/a.json.gz"] .nil) (.err "boom")))
          (SChildren.cons "q/" (STree.node (.cons .nil ["q/b.json.gz"] .nil))
            .nil)) ["seen.json.gz"] =
      collectChildren
        (SChildren.cons "q/" (STree.node (.cons .nil ["q/b.json.gz"] .nil)) .nil)
        (collectPages (.cons .nil ["p/a.json.gz"] .nil) ["seen.json.gz"]) ∧
    collectLogs "p/" (STree.node (appendPages (.cons .nil ["p/a.json.gz"] .nil) (.err "boom"))) =
      collectLogs "p/" (STree.node (.cons .nil ["p/a.json.gz"] .nil)) ++
        ["Error listing " ++ "p/" ++ ": " ++ "boom"] :=
  enumerator_error_scoped (.cons .nil ["p/a.json.gz"] .nil) "boom" "p/" "q/"
    (STree.node (.cons .nil ["q/b.json.gz"] .nil)) .nil ["seen.json.gz"] (by decide)

/-- C10: the walk only ever appends to the accumulator, so a listing error
never removes previously collected keys: for any subtree (errors anywhere
included) the result extends the incoming accumulator, and in particular a
prefix whose listing fails after some successful pages keeps every key from
those pages and from the sub-prefixes recursed into before the failure. -/
theorem enumerator_accumulator_monotone (t : STree) (acc : List String)
    (ps : SPageList) (e : String) :
    collectRecursive t acc = acc ++ collectRecursive t [] ∧
    collectPages (appendPages ps (.err e)) acc = acc ++ collectPages ps [] := by
  refine ⟨collectRecursive_acc t acc, ?_⟩
  rw [collectPages_append_err ps e acc]
  exact collectPages_acc ps acc

/-! The transfer scheduler's interleaving semantics.

`downloadFiles` (src/main.go lines 100-138) launches one goroutine per key,
guarded by a 20-permit semaphore (`sem := make(chan struct{}, 20)`, line
102) and a `sync.WaitGroup`.  Each goroutine sends on `sem` before doing any
work (line 108) and receives from it via `defer` when it ends, on every
path, success or failure (line 109).  A task is modelled by a phase:
`pending` (loop iteration not reached), `waiting` (goroutine launched, send
on `sem` blocked), `running` (slot held, transfer in progress), `done ok`
(ended; the slot has been released, `ok` records success).  An execution is
a list of events applied to the per-task phase list; `applyEvent` returns
`none` when the event is not enabled.  `wg.Wait()` (line 137) returns
exactly in the states where `returned` holds. -/

inductive TPhase where
  | pending : TPhase
  | waiting : TPhase
  | running : TPhase
  | done : Bool → TPhase
deriving DecidableEq

/-- True exactly when the task holds a ConcurrencySlot. -/
def TPhase.isRunning : TPhase → Bool
  | .running => true
  | _ => false

def TPhase.isDone : TPhase → Bool
  | .done _ => true
  | _ => false

/-- Number of slots of the semaphore currently held. -/
def slotsHeld (s : List TPhase) : Nat := s.countP TPhase.isRunning

inductive DEvent where
  | spawn : Nat → DEvent
  | acquire : Nat → DEvent
  | finish : Nat → Bool → DEvent
deriving DecidableEq

/-- One atomic step of the scheduler.  `spawn i` is the `go func` launch for
key `i` (src/main.go line 106); `acquire i` is the send on `sem`, enabled
only while fewer than `lim` slots are held (line 108); `finish i ok` is the
task ending with the deferred receive from `sem` (line 109), for success and
failure alike. -/
def applyEvent (lim : Nat) (s : List TPhase) : DEvent → Option (List TPhase)
  | .spawn i => match s[i]? with
    | some .pending => some (s.set i .waiting)
    | _ => none
  | .acquire i => match s[i]? with
    | some .waiting => if slotsHeld s < lim then some (s.set i .running) else none
    | _ => none
  | .finish i ok => match s[i]? with
    | some .running => some (s.set i (.done ok))
    | _ => none

def runEvents (lim : Nat) (s : List TPhase) : List DEvent → Option (List TPhase)
  | [] => some s
  | e :: es => match applyEvent lim s e with
    | some s₂ => runEvents lim s₂ es
    | none => none

/-- Initial state of `downloadFiles`: one task per key, none launched. -/
def initSched (keys : List String) : List TPhase := keys.map fun _ => .pending

/-- The state in which `wg.Wait()` has returned: every task is done. -/
def returned (s : List TPhase) : Bool := s.all TPhase.isDone

theorem countP_set_aux {α : Type} (p : α → Bool) :
    ∀ (s : List α) (i : Nat) (v u : α), s[i]? = some u →
      (s.set i v).countP p + (if p u then 1 else 0)
        = s.countP p + (if p v then 1 else 0) := by
  intro s
  induction s with
  | nil => intro i v u h; simp at h
  | cons a rest ih =>
    intro i v u h
    cases i with
    | zero =>
      simp only [List.getElem?_cons_zero, Option.some.injEq] at h
      subst h
      simp only [List.set_cons_zero, List.countP_cons]
      omega
    | succ n =>
      simp only [List.getElem?_cons_succ] at h
      simp only [List.set_cons_succ, List.countP_cons]
      have := ih n v u h
      omega

theorem slotsHeld_initSched (keys : List String) : slotsHeld (initSched keys) = 0 := by
  induction keys with
  | nil => rfl
  | cons k rest ih =>
    simp only [initSched, List.map_cons, slotsHeld, List.countP_cons] at *
    simp [TPhase.isRunning, ih]

theorem applyEvent_spawn_slots (lim : Nat) (s s' : List TPhase) (i : Nat)
    (happ : applyEvent lim s (DEvent.spawn i) = some s') :
    s' = s.set i TPhase.waiting ∧ s[i]? = some TPhase.pending ∧
      slotsHeld s' = slotsHeld s := by
  simp only [applyEvent] at happ
  split at happ
  · next heq =>
    injection happ with h
    have hc := countP_set_aux TPhase.isRunning s i TPhase.waiting TPhase.pending heq
    simp [TPhase.isRunning] at hc
    refine ⟨h.symm, heq, ?_⟩
    simp only [slotsHeld, ← h]
    omega
  · exact absurd happ (by simp)

theorem applyEvent_acquire_slots (lim : Nat) (s s' : List TPhase) (i : Nat)
    (happ : applyEvent lim s (DEvent.acquire i) = some s') :
    s' = s.set i TPhase.running ∧ s[i]? = some TPhase.waiting ∧
      slotsHeld s < lim ∧ slotsHeld s' = slotsHeld s + 1 := by
  simp only [applyEvent] at happ
  split at happ
  · next heq =>
    split at happ
    · next hlt =>
      injection happ with h
      have hc := countP_set_aux TPhase.isRunning s i TPhase.running TPhase.waiting heq
      simp [TPhase.isRunning] at hc
      refine ⟨h.symm, heq, hlt, ?_⟩
      simp only [slotsHeld, ← h]
      omega
    · exact absurd happ (by simp)
  · exact absurd happ (by simp)

theorem applyEvent_finish_slots (lim : Nat) (s s' : List TPhase) (i : Nat) (ok : Bool)
    (happ : applyEvent lim s (DEvent.finish i ok) = some s') :
    s' = s.set i (TPhase.done ok) ∧ s[i]? = some TPhase.running ∧
      slotsHeld s' + 1 = slotsHeld s := by
  simp only [applyEvent] at happ
  split at happ
  · next heq =>
    injection happ with h
    have hc := countP_set_aux TPhase.isRunning s i (TPhase.done ok) TPhase.running heq
    simp [TPhase.isRunning] at hc
    refine ⟨h.symm, heq, ?_⟩
    simp only [slotsHeld, ← h]
    omega
  · exact absurd happ (by simp)

theorem applyEvent_bound (lim : Nat) (s s' : List TPhase) (e : DEvent)
    (happ : applyEvent lim s e = some s') (h : slotsHeld s ≤ lim) :
    slotsHeld s' ≤ lim := by
  cases e with
  | spawn i =>
    have := (applyEvent_spawn_slots lim s s' i happ).2.2
    omega
  | acquire i =>
    have := (applyEvent_acquire_slots lim s s' i happ).2.2
    omega
  | finish i ok =>
    have := (applyEvent_finish_slots lim s s' i ok happ).2.2
    omega

theorem runEvents_bound (lim : Nat) (es : List DEvent) :
    ∀ s s' : List TPhase, runEvents lim s es = some s' →
      slotsHeld s ≤ lim → slotsHeld s' ≤ lim := by
  induction es with
  | nil =>
    intro s s' h hb
    simp only [runEvents, Option.some.injEq] at h
    exact h ▸ hb
  | cons e rest ih =>
    intro s s' h hb
    simp only [runEvents] at h
    cases happ : applyEvent lim s e with
    | none => rw [happ] at h; simp at h
    | some s₂ =>
      rw [happ] at h
      exact ih s₂ s' h (applyEvent_bound lim s s₂ e happ hb)

theorem getElem?_set_self_aux {α : Type} :
    ∀ (l : List α) (i : Nat) (v : α), i < l.length → (l.set i v)[i]? = some v := by
  intro l
  induction l with
  | nil => intro i v h; simp at h
  | cons a rest ih =>
    intro i v h
    cases i with
    | zero => simp
    | succ n =>
      simp only [List.set_cons_succ, List.getElem?_cons_succ]
      exact ih n v (by simpa using h)

theorem getElem?_set_ne_aux {α : Type} :
    ∀ (l : List α) (i j : Nat) (v : α), i ≠ j → (l.set i v)[j]? = l[j]? := by
  intro l
  induction l with
  | nil => intro i j v _; simp
  | cons a rest ih =>
    intro i j v hne
    cases i with
    | zero =>
      cases j with
      | zero => exact absurd rfl hne
      | succ m => simp
    | succ n =>
      cases j with
      | zero => simp
      | succ m =>
        simp only [List.set_cons_succ, List.getElem?_cons_succ]
        exact ih n m v (by omega)

theorem lt_length_of_getElem?_some {α : Type} {l : List α} {i : Nat} {a : α}
    (h : l[i]? = some a) : i < l.length := by
  by_contra hlt
  rw [List.getElem?_eq_none (by omega)] at h
  simp at h

theorem mem_of_getElem?_aux {α : Type} {l : List α} {i : Nat} {a : α}
    (h : l[i]? = some a) : a ∈ l := by
  have hlt := lt_length_of_getElem?_some h
  rw [List.getElem?_eq_getElem hlt] at h
  injection h with h
  rw [← h]
  exact List.getElem_mem hlt

/-- 1 once the task has started its transfer (acquired its slot), 0 before:
phases only ever advance pending → waiting → running → done. -/
def acquiredFlag : TPhase → Nat
  | .pending => 0
  | .waiting => 0
  | .running => 1
  | .done _ => 1

/-- Number of `acquire` events for task `i` in a trace. -/
def acqCount (i : Nat) (es : List DEvent) : Nat :=
  es.countP fun e => match e with
    | .acquire j => j == i
    | _ => false

theorem applyEvent_length (lim : Nat) (s s' : List TPhase) (e : DEvent)
    (happ : applyEvent lim s e = some s') : s'.length = s.length := by
  cases e with
  | spawn i => rw [(applyEvent_spawn_slots lim s s' i happ).1]; simp
  | acquire i => rw [(applyEvent_acquire_slots lim s s' i happ).1]; simp
  | finish i ok => rw [(applyEvent_finish_slots lim s s' i ok happ).1]; simp

theorem applyEvent_flag (lim : Nat) (s s' : List TPhase) (e : DEvent)
    (happ : applyEvent lim s e = some s') (i : Nat) (u : TPhase)
    (hu : s[i]? = some u) :
    ∃ u', s'[i]? = some u' ∧
      acquiredFlag u' = acquiredFlag u +
        (match e with | DEvent.acquire j => if j = i then 1 else 0 | _ => 0) := by
  cases e with
  | spawn j =>
    obtain ⟨hset, hj, _⟩ := applyEvent_spawn_slots lim s s' j happ
    by_cases hji : j = i
    · subst hji
      rw [hj] at hu
      injection hu with hu
      refine ⟨TPhase.waiting, ?_, ?_⟩
      · rw [hset]; exact getElem?_set_self_aux s j _ (lt_length_of_getElem?_some hj)
      · rw [← hu]; simp [acquiredFlag]
    · refine ⟨u, ?_, by simp⟩
      rw [hset, getElem?_set_ne_aux s j i _ hji]; exact hu
  | acquire j =>
    obtain ⟨hset, hj, _, _⟩ := applyEvent_acquire_slots lim s s' j happ
    by_cases hji : j = i
    · subst hji
      rw [hj] at hu
      injection hu with hu
      refine ⟨TPhase.running, ?_, ?_⟩
      · rw [hset]; exact getElem?_set_self_aux s j _ (lt_length_of_getElem?_some hj)
      · rw [← hu]; simp [acquiredFlag]
    · refine ⟨u, ?_, by simp [hji]⟩
      rw [hset, getElem?_set_ne_aux s j i _ hji]; exact hu
  | finish j ok =>
    obtain ⟨hset, hj, _⟩ := applyEvent_finish_slots lim s s' j ok happ
    by_cases hji : j = i
    · subst hji
      rw [hj] at hu
      injection hu with hu
      refine ⟨TPhase.done ok, ?_, ?_⟩
      · rw [hset]; exact getElem?_set_self_aux s j _ (lt_length_of_getElem?_some hj)
      · rw [← hu]; simp [acquiredFlag]
    · refine ⟨u, ?_, by simp⟩
      rw [hset, getElem?_set_ne_aux s j i _ hji]; exact hu

theorem runEvents_flag (lim : Nat) (es : List DEvent) :
    ∀ s s' : List TPhase, runEvents lim s es = some s' →
      s'.length = s.length ∧
      ∀ i u, s[i]? = some u → ∃ u', s'[i]? = some u' ∧
        acquiredFlag u' = acquiredFlag u + acqCount i es := by
  induction es with
  | nil =>
    intro s s' h
    simp only [runEvents, Option.some.injEq] at h
    subst h
    exact ⟨rfl, fun i u hu => ⟨u, hu, by simp [acqCount]⟩⟩
  | cons e rest ih =>
    intro s s' h
    simp only [runEvents] at h
    cases happ : applyEvent lim s e with
    | none => rw [happ] at h; simp at h
    | some s₂ =>
      rw [happ] at h
      obtain ⟨hlen, hflag⟩ := ih s₂ s' h
      refine ⟨hlen.trans (applyEvent_length lim s s₂ e happ), ?_⟩
      intro i u hu
      obtain ⟨u₂, hu₂, hf₂⟩ := applyEvent_flag lim s s₂ e happ i u hu
      obtain ⟨u', hu', hf'⟩ := hflag i u₂ hu₂
      refine ⟨u', hu', ?_⟩
      rw [hf', hf₂]
      cases e with
      | spawn j => simp [acqCount, List.countP_cons]
      | finish j ok => simp [acqCount, List.countP_cons]
      | acquire j =>
        by_cases hji : j = i
        · subst hji; simp [acqCount, List.countP_cons]; omega
        · simp [acqCount, List.countP_cons, hji]

theorem acquiredFlag_le_one (u : TPhase) : acquiredFlag u ≤ 1 := by
  cases u <;> simp [acquiredFlag]

theorem initSched_getElem? (keys : List String) (i : Nat) (h : i < keys.length) :
    (initSched keys)[i]? = some TPhase.pending := by
  have h' : i < (initSched keys).length := by simpa [initSched] using h
  rw [List.getElem?_eq_getElem h']
  simp [initSched]

/-- C3: with the concurrency ceiling 20 of src/main.go line 102, no reachable
state of a transfer batch holds more than 20 ConcurrencySlots at once;
a task starts its transfer (enters `running`) only by acquiring a slot while
fewer than 20 are held, and finishing a task — successfully or not — always
releases exactly one slot. -/
theorem transfer_concurrency_bounded (keys : List String) (es : List DEvent)
    (s : List TPhase) (h : runEvents 20 (initSched keys) es = some s) :
    slotsHeld s ≤ 20 ∧
    (∀ u u' i, applyEvent 20 u (DEvent.acquire i) = some u' →
      u[i]? = some TPhase.waiting ∧ u'[i]? = some TPhase.running ∧
        slotsHeld u < 20 ∧ slotsHeld u' = slotsHeld u + 1) ∧
    (∀ u u' i ok, applyEvent 20 u (DEvent.finish i ok) = some u' →
      slotsHeld u' + 1 = slotsHeld u) := by
  refine ⟨?_, ?_, ?_⟩
  · have h0 : slotsHeld (initSched keys) ≤ 20 := by
      rw [slotsHeld_initSched]; omega
    exact runEvents_bound 20 es (initSched keys) s h h0
  · intro u u' i happ
    obtain ⟨hset, hw, hlt, hslots⟩ := applyEvent_acquire_slots 20 u u' i happ
    refine ⟨hw, ?_, hlt, hslots⟩
    rw [hset]
    exact getElem?_set_self_aux u i _ (lt_length_of_getElem?_some hw)
  · intro u u' i ok happ
    exact (applyEvent_finish_slots 20 u u' i ok happ).2.2

/-- Witness for C3: a complete two-task execution under the ceiling 20. -/
theorem transfer_concurrency_bounded_witness :
    slotsHeld [TPhase.done true, TPhase.done false] ≤ 20 ∧
    (∀ u u' i, applyEvent 20 u (DEvent.acquire i) = some u' →
      u[i]? = some TPhase.waiting ∧ u'[i]? = some TPhase.running ∧
        slotsHeld u < 20 ∧ slotsHeld u' = slotsHeld u + 1) ∧
    (∀ u u' i ok, applyEvent 20 u (DEvent.finish i ok) = some u' →
      slotsHeld u' + 1 = slotsHeld u) :=
  transfer_concurrency_bounded ["k1", "k2"]
    [DEvent.spawn 0, DEvent.acquire 0, DEvent.spawn 1, DEvent.acquire 1,
      DEvent.finish 0 true, DEvent.finish 1 false]
    [TPhase.done true, TPhase.done false] (by decide)

/-- C4: a transfer batch creates exactly one task per key of the input list;
in any reachable state no task has acquired its slot more than once (no
retries), and in a state where `wg.Wait()` has returned every task has
terminated in a success or a logged failure, having been attempted exactly
once — no task is still running, none was skipped, none ran twice. -/
theorem transfer_attempts_each_key_once (keys : List String) (es : List DEvent)
    (s : List TPhase) (h : runEvents 20 (initSched keys) es = some s) :
    s.length = keys.length ∧
    (∀ i, i < keys.length → acqCount i es ≤ 1) ∧
    (returned s = true → ∀ i, i < keys.length →
      acqCount i es = 1 ∧ ∃ ok, s[i]? = some (TPhase.done ok)) := by
  obtain ⟨hlen, hflag⟩ := runEvents_flag 20 es (initSched keys) s h
  have hlen' : s.length = keys.length := by simpa [initSched] using hlen
  refine ⟨hlen', ?_, ?_⟩
  · intro i hi
    obtain ⟨u', hu', hf⟩ := hflag i _ (initSched_getElem? keys i hi)
    have hle := acquiredFlag_le_one u'
    have h0 : acquiredFlag TPhase.pending = 0 := rfl
    rw [h0] at hf
    omega
  · intro hret i hi
    obtain ⟨u', hu', hf⟩ := hflag i _ (initSched_getElem? keys i hi)
    have hmem : u' ∈ s := mem_of_getElem?_aux hu'
    have hdone : TPhase.isDone u' = true := by
      have := List.all_eq_true.mp hret
      exact this u' hmem
    cases u' with
    | pending => simp [TPhase.isDone] at hdone
    | waiting => simp [TPhase.isDone] at hdone
    | running => simp [TPhase.isDone] at hdone
    | done ok =>
      refine ⟨?_, ok, hu'⟩
      have h0 : acquiredFlag TPhase.pending = 0 := rfl
      have h1 : acquiredFlag (TPhase.done ok) = 1 := rfl
      rw [h0, h1] at hf
      omega

/-- Witness for C4: a completed one-task execution. -/
theorem transfer_attempts_each_key_once_witness :
    [TPhase.done true].length = ["k"].length ∧
    (∀ i, i < ["k"].length →
      acqCount i [DEvent.spawn 0, DEvent.acquire 0, DEvent.finish 0 true] ≤ 1) ∧
    (returned [TPhase.done true] = true → ∀ i, i < ["k"].length →
      acqCount i [DEvent.spawn 0, DEvent.acquire 0, DEvent.finish 0 true] = 1 ∧
        ∃ ok, [TPhase.done true][i]? = some (TPhase.done ok)) :=
  transfer_attempts_each_key_once ["k"]
    [DEvent.spawn 0, DEvent.acquire 0, DEvent.finish 0 true]
    [TPhase.done true] (by decide)

/-! The filesystem effect of `downloadFiles`.

The per-key task body (src/main.go lines 106-134) computes
`filePath := filepath.Join(localDir, key)`, runs `os.MkdirAll` on its
directory, `os.Create`s the file (which creates or truncates it to empty),
and streams the object into it; each failing step logs and ends the task.
The filesystem is a set of directories plus an association list of files.
Tasks of distinct keys write distinct paths (spec §5: the filesystem is
logically partitioned per task), so the final filesystem of the concurrent
batch equals this sequential fold; the interleaving itself is modelled above
by `runEvents`.  The collaborators (S3 download result, `os.MkdirAll`,
`os.Create`) are environment oracles. -/

structure FS where
  dirs : List Path
  files : List (Path × Bytes)

/-- Association-list lookup of a file's bytes. -/
def lookupA : List (Path × Bytes) → Path → Option Bytes
  | [], _ => none
  | (q, bs) :: rest, p => if q = p then some bs else lookupA rest p

/-- Association-list write (create or overwrite). -/
def updateA : List (Path × Bytes) → Path → Bytes → List (Path × Bytes)
  | [], p, bs => [(p, bs)]
  | (q, cs) :: rest, p, bs =>
    if q = p then (p, bs) :: rest else (q, cs) :: updateA rest p bs

def lookupFile (fs : FS) (p : Path) : Option Bytes := lookupA fs.files p

def setFile (fs : FS) (p : Path) (bs : Bytes) : FS :=
  { fs with files := updateA fs.files p bs }

/-- The local path mirroring a key: the local root joined with the key,
every key segment preserved as a directory level (src/main.go line 112). -/
def mirrorPath (localDir : Path) (key : String) : Path := localDir ++ keySegs key

/-- Embeds Go `filepath.Dir` on a segment list. -/
def pathDir (p : Path) : Path := p.dropLast

/-- The directories `os.MkdirAll d` guarantees to exist: `d` and all its
ancestors. -/
def parentsOf (d : Path) : List Path := d.inits.filter fun q => !q.isEmpty

/-- Embeds `os.MkdirAll` (src/main.go line 113) on a successful return. -/
def mkdirAllFS (fs : FS) (d : Path) : FS :=
  { fs with dirs := parentsOf d ++ fs.dirs }

/-- Collaborators of the transfer scheduler: the results of `os.MkdirAll`,
`os.Create` and `downloader.Download` for each path or key. -/
structure DLEnv where
  mkdir : Path → Except String Unit
  create : Path → Except String Unit
  remote : String → Except String Bytes

inductive Outcome where
  | ok : Outcome
  | mkdirFailed : String → Outcome
  | createFailed : String → Outcome
  | downloadFailed : String → Outcome
deriving DecidableEq

/-- Embeds the body of one transfer goroutine (src/main.go lines 106-134),
semaphore aside: resolve the mirrored path, create its directories, create
the file (initially empty), stream the object's bytes into it.  Each failure
is logged in Go and ends the task; the log line carries the key (lines 114,
130) or the path (line 120) and the error.  On a failed download the created
file is left in place; the model records its content as the empty byte list
written by `os.Create` (in Go a partial download may also have written a
prefix of the object). -/
def downloadOne (env : DLEnv) (localDir : Path) (fs : FS) (key : String) :
    FS × Outcome :=
  match env.mkdir (pathDir (mirrorPath localDir key)) with
  | .error e => (fs, .mkdirFailed e)
  | .ok _ =>
    match env.create (mirrorPath localDir key) with
    | .error e => (mkdirAllFS fs (pathDir (mirrorPath localDir key)), .createFailed e)
    | .ok _ =>
      match env.remote key with
      | .error e =>
        (setFile (mkdirAllFS fs (pathDir (mirrorPath localDir key)))
          (mirrorPath localDir key) [], .downloadFailed e)
      | .ok bs =>
        (setFile (setFile (mkdirAllFS fs (pathDir (mirrorPath localDir key)))
          (mirrorPath localDir key) []) (mirrorPath localDir key) bs, .ok)

/-- The outcome of one key's task; it depends only on the environment and
the key, never on the filesystem state left by other tasks. -/
def taskOutcome (env : DLEnv) (localDir : Path) (key : String) : Outcome :=
  match env.mkdir (pathDir (mirrorPath localDir key)) with
  | .error e => .mkdirFailed e
  | .ok _ =>
    match env.create (mirrorPath localDir key) with
    | .error e => .createFailed e
    | .ok _ =>
      match env.remote key with
      | .error e => .downloadFailed e
      | .ok _ => .ok

/-- Embeds `downloadFiles` (src/main.go lines 100-138) as its effect on the
filesystem plus the outcome of every key, one outcome per input list entry. -/
def downloadFiles (env : DLEnv) (localDir : Path) (fs : FS) :
    List String → FS × List Outcome
  | [] => (fs, [])
  | k :: ks =>
    ((downloadFiles env localDir (downloadOne env localDir fs k).1 ks).1,
      (downloadOne env localDir fs k).2 ::
        (downloadFiles env localDir (downloadOne env localDir fs k).1 ks).2)

theorem lookupA_update_self (l : List (Path × Bytes)) (p : Path) (bs : Bytes) :
    lookupA (updateA l p bs) p = some bs := by
  induction l with
  | nil => simp [updateA, lookupA]
  | cons e rest ih =>
    obtain ⟨q, cs⟩ := e
    by_cases h : q = p
    · simp [updateA, lookupA, h]
    · simp [updateA, lookupA, h, ih]

theorem lookupA_update_ne (l : List (Path × Bytes)) (p q : Path) (bs : Bytes)
    (h : p ≠ q) : lookupA (updateA l p bs) q = lookupA l q := by
  induction l with
  | nil => simp [updateA, lookupA, h]
  | cons e rest ih =>
    obtain ⟨r, cs⟩ := e
    by_cases hr : r = p
    · subst hr; simp [updateA, lookupA, h]
    · simp only [updateA, if_neg hr, lookupA, ih]

theorem downloadOne_outcome (env : DLEnv) (localDir : Path) (fs : FS) (key : String) :
    (downloadOne env localDir fs key).2 = taskOutcome env localDir key := by
  simp only [downloadOne, taskOutcome]
  cases env.mkdir (pathDir (mirrorPath localDir key)) with
  | error e => rfl
  | ok u =>
    cases env.create (mirrorPath localDir key) with
    | error e => rfl
    | ok u' =>
      cases env.remote key with
      | error e => rfl
      | ok bs => rfl

theorem downloadOne_preserve (env : DLEnv) (localDir : Path) (fs : FS)
    (key : String) (p : Path) (hne : p ≠ mirrorPath localDir key) :
    lookupFile (downloadOne env localDir fs key).1 p = lookupFile fs p := by
  simp only [downloadOne]
  cases env.mkdir (pathDir (mirrorPath localDir key)) with
  | error e => rfl
  | ok u =>
    cases env.create (mirrorPath localDir key) with
    | error e => rfl
    | ok u' =>
      cases env.remote key with
      | error e =>
        simp only [lookupFile, setFile, mkdirAllFS]
        exact lookupA_update_ne _ _ _ _ (fun h => hne h.symm)
      | ok bs =>
        simp only [lookupFile, setFile, mkdirAllFS]
        rw [lookupA_update_ne _ _ _ _ (fun h => hne h.symm),
          lookupA_update_ne _ _ _ _ (fun h => hne h.symm)]

theorem downloadOne_dirs_mono (env : DLEnv) (localDir : Path) (fs : FS)
    (key : String) (d : Path) (hd : d ∈ fs.dirs) :
    d ∈ (downloadOne env localDir fs key).1.dirs := by
  simp only [downloadOne]
  cases env.mkdir (pathDir (mirrorPath localDir key)) with
  | error e => exact hd
  | ok u =>
    cases env.create (mirrorPath localDir key) with
    | error e => exact List.mem_append_right _ hd
    | ok u' =>
      cases env.remote key with
      | error e => exact List.mem_append_right _ hd
      | ok bs => exact List.mem_append_right _ hd

theorem downloadFiles_preserve (env : DLEnv) (localDir : Path) :
    ∀ (keys : List String) (fs : FS) (p : Path),
      (∀ k ∈ keys, p ≠ mirrorPath localDir k) →
      lookupFile (downloadFiles env localDir fs keys).1 p = lookupFile fs p := by
  intro keys
  induction keys with
  | nil => intro fs p _; rfl
  | cons k ks ih =>
    intro fs p hne
    simp only [downloadFiles]
    rw [ih _ p (fun k' hk' => hne k' (List.mem_cons_of_mem k hk'))]
    exact downloadOne_preserve env localDir fs k p (hne k (List.mem_cons_self k ks))

theorem downloadFiles_dirs_mono (env : DLEnv) (localDir : Path) :
    ∀ (keys : List String) (fs : FS) (d : Path), d ∈ fs.dirs →
      d ∈ (downloadFiles env localDir fs keys).1.dirs := by
  intro keys
  induction keys with
  | nil => intro fs d hd; exact hd
  | cons k ks ih =>
    intro fs d hd
    simp only [downloadFiles]
    exact ih _ d (downloadOne_dirs_mono env localDir fs k d hd)

theorem downloadOne_success_lookup (env : DLEnv) (localDir : Path) (fs : FS)
    (key : String) (h : taskOutcome env localDir key = Outcome.ok) :
    ∃ bs, env.remote key = Except.ok bs ∧
      lookupFile (downloadOne env localDir fs key).1 (mirrorPath localDir key) = some bs ∧
      ∀ d ∈ parentsOf (pathDir (mirrorPath localDir key)),
        d ∈ (downloadOne env localDir fs key).1.dirs := by
  simp only [taskOutcome] at h
  simp only [downloadOne]
  cases hm : env.mkdir (pathDir (mirrorPath localDir key)) with
  | error e => simp [hm] at h
  | ok u =>
    rw [hm] at h
    cases hc : env.create (mirrorPath localDir key) with
    | error e => simp [hc] at h
    | ok u' =>
      rw [hc] at h
      cases hr : env.remote key with
      | error e => simp [hr] at h
      | ok bs =>
        refine ⟨bs, rfl, ?_, ?_⟩
        · simp only [lookupFile, setFile]
          exact lookupA_update_self _ _ _
        · intro d hd
          exact List.mem_append_left _ hd

theorem downloadFiles_outcomes (env : DLEnv) (localDir : Path) :
    ∀ (keys : List String) (fs : FS),
      (downloadFiles env localDir fs keys).2 = keys.map (taskOutcome env localDir) := by
  intro keys
  induction keys with
  | nil => intro fs; rfl
  | cons k ks ih =>
    intro fs
    simp only [downloadFiles, List.map_cons]
    rw [downloadOne_outcome, ih]

theorem downloadFiles_success_lookup (env : DLEnv) (localDir : Path) :
    ∀ (keys : List String) (fs : FS) (key : String),
      (keys.map (mirrorPath localDir)).Nodup → key ∈ keys →
      taskOutcome env localDir key = Outcome.ok →
      ∃ bs, env.remote key = Except.ok bs ∧
        lookupFile (downloadFiles env localDir fs keys).1 (mirrorPath localDir key) = some bs ∧
        ∀ d ∈ parentsOf (pathDir (mirrorPath localDir key)),
          d ∈ (downloadFiles env localDir fs keys).1.dirs := by
  intro keys
  induction keys with
  | nil => intro fs key _ hmem; simp at hmem
  | cons k ks ih =>
    intro fs key hnd hmem hok
    rw [List.map_cons, List.nodup_cons] at hnd
    rcases List.mem_cons.mp hmem with rfl | hmem'
    · obtain ⟨bs, hbs, hlook, hdirs⟩ := downloadOne_success_lookup env localDir fs key hok
      have hne : ∀ k' ∈ ks, mirrorPath localDir key ≠ mirrorPath localDir k' := by
        intro k' hk' heq
        exact hnd.1 (heq ▸ List.mem_map_of_mem (mirrorPath localDir) hk')
      refine ⟨bs, hbs, ?_, ?_⟩
      · simp only [downloadFiles]
        rw [downloadFiles_preserve env localDir ks _ _ hne]
        exact hlook
      · intro d hd
        simp only [downloadFiles]
        exact downloadFiles_dirs_mono env localDir ks _ d (hdirs d hd)
    · exact ih (downloadOne env localDir fs k).1 key hnd.2 hmem' hok

theorem downloadOne_mkdirFailed (env : DLEnv) (localDir : Path) (fs : FS)
    (key : String) (e : String)
    (h : taskOutcome env localDir key = Outcome.mkdirFailed e) :
    (downloadOne env localDir fs key).1 = fs := by
  simp only [taskOutcome] at h
  simp only [downloadOne]
  cases hm : env.mkdir (pathDir (mirrorPath localDir key)) with
  | error e' => rfl
  | ok u =>
    rw [hm] at h
    cases hc : env.create (mirrorPath localDir key) with
    | error e' => simp [hc] at h
    | ok u' =>
      rw [hc] at h
      cases hr : env.remote key with
      | error e' => simp [hr] at h
      | ok bs => simp [hr] at h

theorem downloadOne_createFailed (env : DLEnv) (localDir : Path) (fs : FS)
    (key : String) (e : String)
    (h : taskOutcome env localDir key = Outcome.createFailed e) :
    (downloadOne env localDir fs key).1.files = fs.files := by
  simp only [taskOutcome] at h
  simp only [downloadOne]
  cases hm : env.mkdir (pathDir (mirrorPath localDir key)) with
  | error e' => simp [hm] at h
  | ok u =>
    rw [hm] at h
    cases hc : env.create (mirrorPath localDir key) with
    | error e' => rfl
    | ok u' =>
      rw [hc] at h
      cases hr : env.remote key with
      | error e' => simp [hr] at h
      | ok bs => simp [hr] at h

theorem downloadOne_downloadFailed (env : DLEnv) (localDir : Path) (fs : FS)
    (key : String) (e : String)
    (h : taskOutcome env localDir key = Outcome.downloadFailed e) :
    lookupFile (downloadOne env localDir fs key).1 (mirrorPath localDir key) = some [] := by
  simp only [taskOutcome] at h
  simp only [downloadOne]
  cases hm : env.mkdir (pathDir (mirrorPath localDir key)) with
  | error e' => simp [hm] at h
  | ok u =>
    rw [hm] at h
    cases hc : env.create (mirrorPath localDir key) with
    | error e' => simp [hc] at h
    | ok u' =>
      rw [hc] at h
      cases hr : env.remote key with
      | error e' =>
        simp only [lookupFile, setFile]
        exact lookupA_update_self _ _ _
      | ok bs => simp [hr] at h

theorem downloadFiles_failed_lookup (env : DLEnv) (localDir : Path) :
    ∀ (keys : List String) (fs : FS) (key : String),
      (keys.map (mirrorPath localDir)).Nodup → key ∈ keys →
      lookupFile fs (mirrorPath localDir key) = none →
      (∀ e, taskOutcome env localDir key = Outcome.mkdirFailed e →
        lookupFile (downloadFiles env localDir fs keys).1 (mirrorPath localDir key) = none) ∧
      (∀ e, taskOutcome env localDir key = Outcome.createFailed e →
        lookupFile (downloadFiles env localDir fs keys).1 (mirrorPath localDir key) = none) ∧
      (∀ e, taskOutcome env localDir key = Outcome.downloadFailed e →
        lookupFile (downloadFiles env localDir fs keys).1 (mirrorPath localDir key) = some []) := by
  intro keys
  induction keys with
  | nil => intro fs key _ hmem; simp at hmem
  | cons k ks ih =>
    intro fs key hnd hmem hnone
    rw [List.map_cons, List.nodup_cons] at hnd
    rcases List.mem_cons.mp hmem with rfl | hmem'
    · have hne : ∀ k' ∈ ks, mirrorPath localDir key ≠ mirrorPath localDir k' := by
        intro k' hk' heq
        exact hnd.1 (heq ▸ List.mem_map_of_mem (mirrorPath localDir) hk')
      refine ⟨?_, ?_, ?_⟩
      · intro e he
        simp only [downloadFiles]
        rw [downloadFiles_preserve env localDir ks _ _ hne,
          downloadOne_mkdirFailed env localDir fs key e he]
        exact hnone
      · intro e he
        simp only [downloadFiles]
        rw [downloadFiles_preserve env localDir ks _ _ hne]
        simp only [lookupFile]
        rw [downloadOne_createFailed env localDir fs key e he]
        exact hnone
      · intro e he
        simp only [downloadFiles]
        rw [downloadFiles_preserve env localDir ks _ _ hne]
        exact downloadOne_downloadFailed env localDir fs key e he
    · have hne : mirrorPath localDir key ≠ mirrorPath localDir k := by
        intro heq
        exact hnd.1 (heq ▸ List.mem_map_of_mem (mirrorPath localDir) hmem')
      have hnone₂ :
          lookupFile (downloadOne env localDir fs k).1 (mirrorPath localDir key) = none := by
        rw [downloadOne_preserve env localDir fs k _ hne]
        exact hnone
      exact ih (downloadOne env localDir fs k).1 key hnd.2 hmem' hnone₂

/-- C8: every key of a transfer batch receives exactly one outcome, and the
outcome of a key's task is a function of the environment and that key alone.
A failure at directory creation, file creation, or streaming (each logged in
Go together with the offending key or path and the cause, src/main.go lines
114, 120, 130) ends only that task and is not raised to the caller: the
remaining keys are all still attempted and the batch completes, with one
outcome per input key. -/
theorem transfer_failures_isolated (env : DLEnv) (localDir : Path) (fs : FS)
    (keys : List String) :
    (downloadFiles env localDir fs keys).2 = keys.map (taskOutcome env localDir) ∧
    ((downloadFiles env localDir fs keys).2).length = keys.length := by
  refine ⟨downloadFiles_outcomes env localDir keys fs, ?_⟩
  rw [downloadFiles_outcomes env localDir keys fs]
  simp

/-- C5: for every successfully transferred key of a batch (distinct mirrored
paths, as produced by the enumerator), the local file's path is the local
root joined with the full key, every key segment preserved as a directory
level, the missing intermediate directories have been created, and the local
file's bytes are exactly the remote object's bytes. -/
theorem transfer_mirrors_path_and_bytes (env : DLEnv) (localDir : Path) (fs : FS)
    (keys : List String) (key : String)
    (hnd : (keys.map (mirrorPath localDir)).Nodup) (hmem : key ∈ keys)
    (hok : taskOutcome env localDir key = Outcome.ok) :
    mirrorPath localDir key = localDir ++ keySegs key ∧
    ∃ bs, env.remote key = Except.ok bs ∧
      lookupFile (downloadFiles env localDir fs keys).1 (mirrorPath localDir key) = some bs ∧
      ∀ d ∈ parentsOf (pathDir (mirrorPath localDir key)),
        d ∈ (downloadFiles env localDir fs keys).1.dirs :=
  ⟨rfl, downloadFiles_success_lookup env localDir keys fs key hnd hmem hok⟩

/-- An environment in which every collaborator call succeeds and every
object's content is the byte sequence 1, 2, 3. -/
def okEnv : DLEnv :=
  ⟨fun _ => Except.ok (), fun _ => Except.ok (), fun _ => Except.ok [1, 2, 3]⟩

/-- Witness for C5: one key downloaded into "/tmp/downloads". -/
theorem transfer_mirrors_path_and_bytes_witness :
    mirrorPath ["tmp", "downloads"] "a/b.json.gz" =
      ["tmp", "downloads"] ++ keySegs "a/b.json.gz" ∧
    ∃ bs, okEnv.remote "a/b.json.gz" = Except.ok bs ∧
      lookupFile (downloadFiles okEnv ["tmp", "downloads"] ⟨[], []⟩ ["a/b.json.gz"]).1
        (mirrorPath ["tmp", "downloads"] "a/b.json.gz") = some bs ∧
      ∀ d ∈ parentsOf (pathDir (mirrorPath ["tmp", "downloads"] "a/b.json.gz")),
        d ∈ (downloadFiles okEnv ["tmp", "downloads"] ⟨[], []⟩ ["a/b.json.gz"]).1.dirs :=
  transfer_mirrors_path_and_bytes okEnv ["tmp", "downloads"] ⟨[], []⟩
    ["a/b.json.gz"] "a/b.json.gz" (by decide) (by decide) (by decide)

/-- An environment in which directory and file creation succeed but every
download fails with "boom". -/
def failRemoteEnv : DLEnv :=
  ⟨fun _ => Except.ok (), fun _ => Except.ok (), fun _ => Except.error "boom"⟩

/-- C9 is false on the code: a task whose streaming step fails leaves the
file created by `os.Create` (src/main.go line 118) at the key's mirrored
path — nothing removes it (lines 129-131).  Concretely, a batch of one key
whose download fails ends with a (empty) file present at the mirrored path,
where the claim asserts no local file exists; since its name still ends in
".json.gz", it would also be input to a decompression pass over the tree. -/
theorem transfer_failed_file_absent_counterexample :
    (downloadFiles failRemoteEnv ["tmp", "downloads"] ⟨[], []⟩ ["a/b.json.gz"]).2 =
        [Outcome.downloadFailed "boom"] ∧
    lookupFile (downloadFiles failRemoteEnv ["tmp", "downloads"] ⟨[], []⟩ ["a/b.json.gz"]).1
        (mirrorPath ["tmp", "downloads"] "a/b.json.gz") = some [] := by
  decide

/-- C9 amended: a failed key's task is dropped with no retry.  If the
failure hits directory creation or file creation, no file exists at the
key's mirrored path (assuming none existed before the batch) and the key
contributes nothing to the decompression phase's input; but if the streaming
step fails, the file created by `os.Create` remains at the mirrored path
(empty in the model; in Go possibly partially written). -/
theorem transfer_failed_file_state (env : DLEnv) (localDir : Path) (fs : FS)
    (keys : List String) (key : String)
    (hnd : (keys.map (mirrorPath localDir)).Nodup) (hmem : key ∈ keys)
    (hnone : lookupFile fs (mirrorPath localDir key) = none) :
    (∀ e, taskOutcome env localDir key = Outcome.mkdirFailed e →
      lookupFile (downloadFiles env localDir fs keys).1 (mirrorPath localDir key) = none) ∧
    (∀ e, taskOutcome env localDir key = Outcome.createFailed e →
      lookupFile (downloadFiles env localDir fs keys).1 (mirrorPath localDir key) = none) ∧
    (∀ e, taskOutcome env localDir key = Outcome.downloadFailed e →
      (lookupFile (downloadFiles env localDir fs keys).1 (mirrorPath localDir key)).isSome
        = true) := by
  obtain ⟨h₁, h₂, h₃⟩ := downloadFiles_failed_lookup env localDir keys fs key hnd hmem hnone
  refine ⟨h₁, h₂, ?_⟩
  intro e he
  rw [h₃ e he]
  rfl

/-- Witness for C9's amended statement, at the download-failure environment. -/
theorem transfer_failed_file_state_witness :
    (∀ e, taskOutcome failRemoteEnv ["tmp", "downloads"] "a/b.json.gz" =
        Outcome.mkdirFailed e →
      lookupFile (downloadFiles failRemoteEnv ["tmp", "downloads"] ⟨[], []⟩
          ["a/b.json.gz"]).1 (mirrorPath ["tmp", "downloads"] "a/b.json.gz") = none) ∧
    (∀ e, taskOutcome failRemoteEnv ["tmp", "downloads"] "a/b.json.gz" =
        Outcome.createFailed e →
      lookupFile (downloadFiles failRemoteEnv ["tmp", "downloads"] ⟨[], []⟩
          ["a/b.json.gz"]).1 (mirrorPath ["tmp", "downloads"] "a/b.json.gz") = none) ∧
    (∀ e, taskOutcome failRemoteEnv ["tmp", "downloads"] "a/b.json.gz" =
        Outcome.downloadFailed e →
      (lookupFile (downloadFiles failRemoteEnv ["tmp", "downloads"] ⟨[], []⟩
          ["a/b.json.gz"]).1 (mirrorPath ["tmp", "downloads"] "a/b.json.gz")).isSome
        = true) :=
  transfer_failed_file_state failRemoteEnv ["tmp", "downloads"] ⟨[], []⟩
    ["a/b.json.gz"] "a/b.json.gz" (by decide) (by decide) (by decide)

/-! The main entry point. -/

/-- Collaborators of `main` (src/main.go lines 20-67): whether creating the
local download directory and loading the AWS configuration succeed, and the
store's listing responses below the hard-coded starting prefix. -/
structure MainEnv where
  mkdirLocalOk : Bool
  configOk : Bool
  store : STree

/-- The hard-coded local download directory "/tmp/downloads/" (src/main.go
line 27), as segments. -/
def localDirPath : Path := ["tmp", "downloads"]

/-- Embeds `main` (src/main.go lines 20-67): create the local directory
(fatal on failure, lines 31-33), load the AWS configuration (fatal on
failure, lines 36-39), create the S3 client, and collect the ".json.gz" keys
below "miner_data/2025/10/01/00" via `collectRecursive` (line 50).  The
`downloadFiles` call (line 53) and the zip-and-upload steps (lines 55-64)
are commented out in the source, and no decompression code exists anywhere
in it, so after the enumeration the run only logs completion.  `none` models
a fatal setup exit; otherwise the collected keys and the final local
filesystem are returned. -/
def mainRun (env : MainEnv) (fs : FS) : Option (List String × FS) :=
  if env.mkdirLocalOk = false then none
  else if env.configOk = false then none
  else some (collectRecursive env.store [], mkdirAllFS fs localDirPath)

/-- A store holding exactly one matching key below the starting prefix. -/
def c1Store : STree :=
  .node (.cons .nil ["miner_data/2025/10/01/00/x.json.gz"] .nil)

/-- C1 fails on the code: with every setup step succeeding and a store
holding one matching key, the whole run finishes having executed only the
enumeration phase — it returns the collected key, yet the local filesystem
holds no file at all, so the transfer phase never ran (its call is commented
out at src/main.go line 53) and there is no decompression sweep to run over
the (empty) mirror tree. -/
theorem main_runs_only_enumeration :
    (mainRun ⟨true, true, c1Store⟩ ⟨[], []⟩).map (fun r => (r.1, r.2.files)) =
      some (["miner_data/2025/10/01/00/x.json.gz"], []) := by
  decide

/-! The decompression sweep.

Modelled from the spec: no decompression code exists under src/ — the spec's
§1, §2 and §4.3 describe a third phase (Decompression Sweep) absent from
src/main.go.  Following §4.3 and the pure-function reformulation the spec
itself gives in §9 ("a pure function from tree snapshot to list of (path,
outcome)"), the sweep visits every file of the tree; a file whose name
matches the compressed-JSON suffix is decompressed to a sibling file with
the ".gz" extension stripped and the original is then removed; a
decompression failure keeps the original and produces no partial sibling; a
removal failure keeps both copies; non-matching files are untouched. -/

/-- Modelled from the spec (§4.3, §6): the sweep's collaborators — the
streaming decompressor's result per byte content, and whether removing a
file succeeds. -/
structure SweepEnv where
  decompress : Bytes → Except String Bytes
  removeOk : Path → Bool

/-- True when the file name (last path segment) carries the compressed-JSON
suffix ".json.gz". -/
def matchesGz (p : Path) : Bool :=
  match p.getLast? with
  | some s => hasSuffix s jsonGzSuffix
  | none => false

/-- The sibling path with the compression extension ".gz" (3 characters)
stripped from the file name. -/
def stripGzPath (p : Path) : Path :=
  match p.getLast? with
  | some s => p.dropLast ++ [dropRightN s 3]
  | none => p

/-- Modelled from the spec (§4.3): the sweep's action on one file of the
snapshot: a non-matching file is kept; a matching one is replaced by its
decompressed sibling once the original is removed; on a decompression
failure the original is kept and no sibling is produced; on a removal
failure both copies remain. -/
def sweepEntry (env : SweepEnv) (entry : Path × Bytes) : List (Path × Bytes) :=
  if matchesGz entry.1 then
    match env.decompress entry.2 with
    | .error _ => [entry]
    | .ok out =>
      if env.removeOk entry.1 then [(stripGzPath entry.1, out)]
      else [(entry.1, entry.2), (stripGzPath entry.1, out)]
  else [entry]

/-- Modelled from the spec (§4.3, §9): the Decompression Sweep over the
snapshot of every file in the tree.  Directories are untouched. -/
def decompressSweep (env : SweepEnv) (fs : FS) : FS :=
  { fs with files := fs.files.flatMap (sweepEntry env) }

theorem jsonGz_data_reverse :
    jsonGzSuffix.data.reverse = ['z', 'g', '.', 'n', 'o', 's', 'j', '.'] := by
  decide

theorem hasSuffix_jsonGz_elim {s : String} (h : hasSuffix s jsonGzSuffix = true) :
    ∃ v, s.data.reverse = ['z', 'g', '.', 'n', 'o', 's', 'j', '.'] ++ v := by
  unfold hasSuffix at h
  rw [jsonGz_data_reverse] at h
  obtain ⟨v, hv⟩ := List.isPrefixOf_iff_prefix.mp h
  exact ⟨v, hv.symm⟩

theorem stripSeg_data_reverse {s : String} {v : List Char}
    (h : s.data.reverse = ['z', 'g', '.', 'n', 'o', 's', 'j', '.'] ++ v) :
    (dropRightN s 3).data.reverse = ['n', 'o', 's', 'j', '.'] ++ v := by
  show ((s.data.reverse.drop 3).reverse).reverse = _
  rw [List.reverse_reverse, h]
  rfl

theorem hasSuffix_stripSeg_false {s : String} (h : hasSuffix s jsonGzSuffix = true) :
    hasSuffix (dropRightN s 3) jsonGzSuffix = false := by
  obtain ⟨v, hv⟩ := hasSuffix_jsonGz_elim h
  unfold hasSuffix
  rw [jsonGz_data_reverse, stripSeg_data_reverse hv]
  rfl

theorem stripSeg_injective {s t : String}
    (hs : hasSuffix s jsonGzSuffix = true) (ht : hasSuffix t jsonGzSuffix = true)
    (h : dropRightN s 3 = dropRightN t 3) : s = t := by
  obtain ⟨v, hv⟩ := hasSuffix_jsonGz_elim hs
  obtain ⟨w, hw⟩ := hasSuffix_jsonGz_elim ht
  have h₂ : (dropRightN s 3).data.reverse = (dropRightN t 3).data.reverse := by rw [h]
  rw [stripSeg_data_reverse hv, stripSeg_data_reverse hw] at h₂
  have hvw : v = w := by simpa using h₂
  have hrev : s.data.reverse = t.data.reverse := by rw [hv, hw, hvw]
  have hdata : s.data = t.data := by
    have := congrArg List.reverse hrev
    simpa using this
  exact congrArg String.mk hdata

theorem stripSeg_ne {s : String} (h : hasSuffix s jsonGzSuffix = true) :
    dropRightN s 3 ≠ s := by
  obtain ⟨v, hv⟩ := hasSuffix_jsonGz_elim h
  intro he
  have h₂ : (dropRightN s 3).data.reverse = s.data.reverse := by rw [he]
  rw [stripSeg_data_reverse hv, hv] at h₂
  have h₃ := congrArg List.length h₂
  simp only [List.length_append, List.length_cons] at h₃
  omega

theorem matchesGz_decomp {p : Path} (h : matchesGz p = true) :
    ∃ p' s, p = p' ++ [s] ∧ hasSuffix s jsonGzSuffix = true ∧
      stripGzPath p = p' ++ [dropRightN s 3] := by
  unfold matchesGz at h
  cases hl : p.getLast? with
  | none => rw [hl] at h; simp at h
  | some s =>
    rw [hl] at h
    have hne : p ≠ [] := by
      intro he
      rw [he] at hl
      simp at hl
    have hgl : p.getLast hne = s := by
      have hq := List.getLast?_eq_getLast p hne
      rw [hl] at hq
      injection hq with hq
      exact hq.symm
    have hdec : p.dropLast ++ [s] = p := by
      rw [← hgl]
      exact List.dropLast_append_getLast hne
    refine ⟨p.dropLast, s, hdec.symm, h, ?_⟩
    unfold stripGzPath
    rw [hl]

theorem getLast?_append_singleton {α : Type} (l : List α) (a : α) :
    (l ++ [a]).getLast? = some a := by
  rw [List.getLast?_concat]

theorem matchesGz_append_singleton (p' : Path) (x : String) :
    matchesGz (p' ++ [x]) = hasSuffix x jsonGzSuffix := by
  unfold matchesGz
  rw [getLast?_append_singleton]

theorem append_singleton_inj {α : Type} {a b : List α} {x y : α}
    (h : a ++ [x] = b ++ [y]) : a = b ∧ x = y := by
  have := List.append_inj' h (by simp)
  refine ⟨this.1, ?_⟩
  have h₂ := this.2
  simpa using h₂

theorem matchesGz_stripGzPath {p : Path} (h : matchesGz p = true) :
    matchesGz (stripGzPath p) = false := by
  obtain ⟨p', s, hp, hs, hstrip⟩ := matchesGz_decomp h
  rw [hstrip, matchesGz_append_singleton]
  exact hasSuffix_stripSeg_false hs

theorem stripGzPath_ne {p : Path} (h : matchesGz p = true) : stripGzPath p ≠ p := by
  obtain ⟨p', s, hp, hs, hstrip⟩ := matchesGz_decomp h
  rw [hstrip, hp]
  intro he
  exact stripSeg_ne hs (append_singleton_inj he).2

theorem stripGzPath_inj {p q : Path} (hp : matchesGz p = true)
    (hq : matchesGz q = true) (h : stripGzPath p = stripGzPath q) : p = q := by
  obtain ⟨p', s, hpd, hs, hps⟩ := matchesGz_decomp hp
  obtain ⟨q', t, hqd, ht, hqs⟩ := matchesGz_decomp hq
  rw [hps, hqs] at h
  obtain ⟨h₁, h₂⟩ := append_singleton_inj h
  rw [hpd, hqd, h₁, stripSeg_injective hs ht h₂]

theorem lookupA_append (l₁ l₂ : List (Path × Bytes)) (p : Path) :
    lookupA (l₁ ++ l₂) p =
      match lookupA l₁ p with
      | some bs => some bs
      | none => lookupA l₂ p := by
  induction l₁ with
  | nil => simp [lookupA]
  | cons e rest ih =>
    obtain ⟨q, cs⟩ := e
    by_cases h : q = p <;> simp [lookupA, h, ih]

theorem lookupA_none_of_all (l : List (Path × Bytes)) (p : Path)
    (h : ∀ e ∈ l, e.1 ≠ p) : lookupA l p = none := by
  induction l with
  | nil => rfl
  | cons e rest ih =>
    obtain ⟨q, cs⟩ := e
    simp only [lookupA]
    rw [if_neg (h (q, cs) (List.mem_cons_self _ _))]
    exact ih fun e he => h e (List.mem_cons_of_mem _ he)

theorem sweepEntry_nonmatch (env : SweepEnv) (x : Path × Bytes)
    (hm : matchesGz x.1 = false) : sweepEntry env x = [x] := by
  simp [sweepEntry, hm]

theorem sweepEntry_match_ok (env : SweepEnv) (x : Path × Bytes) (out : Bytes)
    (hm : matchesGz x.1 = true) (hd : env.decompress x.2 = Except.ok out)
    (hr : env.removeOk x.1 = true) :
    sweepEntry env x = [(stripGzPath x.1, out)] := by
  simp [sweepEntry, hm, hd, hr]

theorem sweepEntry_mem (env : SweepEnv) (x pr : Path × Bytes)
    (h : pr ∈ sweepEntry env x) :
    pr = x ∨ (matchesGz x.1 = true ∧ ∃ out, pr = (stripGzPath x.1, out)) := by
  by_cases hm : matchesGz x.1
  · cases hd : env.decompress x.2 with
    | error e =>
      have he : sweepEntry env x = [x] := by simp [sweepEntry, hm, hd]
      rw [he, List.mem_singleton] at h
      exact Or.inl h
    | ok out =>
      by_cases hr : env.removeOk x.1
      · rw [sweepEntry_match_ok env x out hm hd hr, List.mem_singleton] at h
        exact Or.inr ⟨hm, out, h⟩
      · have he : sweepEntry env x = [(x.1, x.2), (stripGzPath x.1, out)] := by
          simp [sweepEntry, hm, hd, hr]
        rw [he] at h
        rcases List.mem_cons.mp h with h' | h'
        · exact Or.inl (by rw [h'])
        · rw [List.mem_singleton] at h'
          exact Or.inr ⟨hm, out, h'⟩
  · rw [sweepEntry_nonmatch env x (by simpa using hm), List.mem_singleton] at h
    exact Or.inl h

theorem lookupA_sweep_none (env : SweepEnv) (l : List (Path × Bytes)) (tgt : Path)
    (h : ∀ e ∈ l, e.1 ≠ tgt ∧ (matchesGz e.1 = true → stripGzPath e.1 ≠ tgt)) :
    lookupA (l.flatMap (sweepEntry env)) tgt = none := by
  apply lookupA_none_of_all
  intro pr hpr
  obtain ⟨y, hy, hpry⟩ := List.mem_flatMap.mp hpr
  rcases sweepEntry_mem env y pr hpry with heq | ⟨hm, out, heq⟩
  · rw [heq]; exact (h y hy).1
  · rw [heq]; exact (h y hy).2 hm

theorem lookupA_singleton_self (q : Path) (cs : Bytes) :
    lookupA [(q, cs)] q = some cs := by
  simp [lookupA]

theorem lookupA_singleton_ne (q : Path) (cs : Bytes) (p : Path) (h : q ≠ p) :
    lookupA [(q, cs)] p = none := by
  simp [lookupA, h]

theorem lookupA_append_some (l₁ l₂ : List (Path × Bytes)) (p : Path) (bs : Bytes)
    (h : lookupA l₁ p = some bs) : lookupA (l₁ ++ l₂) p = some bs := by
  induction l₁ with
  | nil => simp [lookupA] at h
  | cons e rest ih =>
    obtain ⟨q, cs⟩ := e
    by_cases hq : q = p
    · simp only [lookupA, if_pos hq] at h
      simp only [List.cons_append, lookupA, if_pos hq]
      exact h
    · simp only [lookupA, if_neg hq] at h
      simp only [List.cons_append, lookupA, if_neg hq]
      exact ih h

theorem lookupA_append_none (l₁ l₂ : List (Path × Bytes)) (p : Path)
    (h : lookupA l₁ p = none) : lookupA (l₁ ++ l₂) p = lookupA l₂ p := by
  induction l₁ with
  | nil => rfl
  | cons e rest ih =>
    obtain ⟨q, cs⟩ := e
    by_cases hq : q = p
    · simp only [lookupA, if_pos hq] at h
      exact absurd h (by simp)
    · simp only [lookupA, if_neg hq] at h
      simp only [List.cons_append, lookupA, if_neg hq]
      exact ih h

theorem sweep_flatMap_lookup (env : SweepEnv) :
    ∀ l : List (Path × Bytes),
      (l.map Prod.fst).Nodup →
      (∀ e ∈ l, matchesGz e.1 = true →
        (∃ out, env.decompress e.2 = Except.ok out) ∧ env.removeOk e.1 = true) →
      (∀ e ∈ l, ∀ e₂ ∈ l, matchesGz e.1 = true → e₂.1 ≠ stripGzPath e.1) →
      ∀ e ∈ l,
        (matchesGz e.1 = true → ∀ out, env.decompress e.2 = Except.ok out →
          lookupA (l.flatMap (sweepEntry env)) (stripGzPath e.1) = some out ∧
          lookupA (l.flatMap (sweepEntry env)) e.1 = none) ∧
        (matchesGz e.1 = false →
          lookupA (l.flatMap (sweepEntry env)) e.1 = some e.2) := by
  intro l
  induction l with
  | nil =>
    intro _ _ _ e he
    simp at he
  | cons x rest ih =>
    intro hnd hok hns e he
    rw [List.map_cons, List.nodup_cons] at hnd
    have hok₂ : ∀ e ∈ rest, matchesGz e.1 = true →
        (∃ out, env.decompress e.2 = Except.ok out) ∧ env.removeOk e.1 = true :=
      fun e he => hok e (List.mem_cons_of_mem x he)
    have hns₂ : ∀ e ∈ rest, ∀ e₂ ∈ rest, matchesGz e.1 = true →
        e₂.1 ≠ stripGzPath e.1 :=
      fun e he e₂ he₂ => hns e (List.mem_cons_of_mem x he) e₂ (List.mem_cons_of_mem x he₂)
    rcases List.mem_cons.mp he with heq | hmem
    · subst heq
      constructor
      · intro hm out hout
        have hrem := (hok e (List.mem_cons_self e rest) hm).2
        rw [List.flatMap_cons]
        constructor
        · apply lookupA_append_some
          rw [sweepEntry_match_ok env e out hm hout hrem]
          exact lookupA_singleton_self _ _
        · rw [lookupA_append_none _ _ _ ?hfx]
          case hfx =>
            rw [sweepEntry_match_ok env e out hm hout hrem]
            exact lookupA_singleton_ne _ _ _ (stripGzPath_ne hm)
          apply lookupA_sweep_none
          intro y hy
          constructor
          · intro hq
            apply hnd.1
            rw [← hq]
            exact List.mem_map_of_mem Prod.fst hy
          · intro hmy hq
            exact hns y (List.mem_cons_of_mem e hy) e (List.mem_cons_self e rest)
              hmy hq.symm
      · intro hm
        rw [List.flatMap_cons]
        apply lookupA_append_some
        rw [sweepEntry_nonmatch env e hm]
        exact lookupA_singleton_self e.1 e.2
    · have hres := ih hnd.2 hok₂ hns₂ e hmem
      have hxe : lookupA (sweepEntry env x) e.1 = none := by
        apply lookupA_none_of_all
        intro pr hpr
        rcases sweepEntry_mem env x pr hpr with heq | ⟨hmx, outx, heq⟩
        · rw [heq]
          intro hq
          apply hnd.1
          rw [hq]
          exact List.mem_map_of_mem Prod.fst hmem
        · rw [heq]
          intro hq
          exact hns x (List.mem_cons_self x rest) e (List.mem_cons_of_mem x hmem)
            hmx hq.symm
      constructor
      · intro hm out hout
        obtain ⟨h₁, h₂⟩ := hres.1 hm out hout
        have hxs : lookupA (sweepEntry env x) (stripGzPath e.1) = none := by
          apply lookupA_none_of_all
          intro pr hpr
          rcases sweepEntry_mem env x pr hpr with heq | ⟨hmx, outx, heq⟩
          · rw [heq]
            exact hns e (List.mem_cons_of_mem x hmem) x (List.mem_cons_self x rest) hm
          · rw [heq]
            intro hq
            have hxy : x.1 = e.1 := stripGzPath_inj hmx hm hq
            apply hnd.1
            rw [hxy]
            exact List.mem_map_of_mem Prod.fst hmem
        rw [List.flatMap_cons, lookupA_append_none _ _ _ hxs]
        refine ⟨h₁, ?_⟩
        rw [← lookupA_append_none (sweepEntry env x) _ _ hxe] at h₂
        rw [lookupA_append_none _ _ _ hxe]
        rw [lookupA_append_none _ _ _ hxe] at h₂
        exact h₂
      · intro hm
        rw [List.flatMap_cons, lookupA_append_none _ _ _ hxe]
        exact hres.2 hm

theorem sweep_nonmatch_fixpoint (env : SweepEnv) :
    ∀ l : List (Path × Bytes), (∀ e ∈ l, matchesGz e.1 = false) →
      l.flatMap (sweepEntry env) = l := by
  intro l
  induction l with
  | nil => intro _; rfl
  | cons x rest ih =>
    intro h
    rw [List.flatMap_cons, sweepEntry_nonmatch env x (h x (List.mem_cons_self x rest)),
      ih fun e he => h e (List.mem_cons_of_mem x he)]
    rfl

theorem sweep_output_nonmatch (env : SweepEnv) (l : List (Path × Bytes))
    (hok : ∀ e ∈ l, matchesGz e.1 = true →
      (∃ out, env.decompress e.2 = Except.ok out) ∧ env.removeOk e.1 = true) :
    ∀ pr ∈ l.flatMap (sweepEntry env), matchesGz pr.1 = false := by
  intro pr hpr
  obtain ⟨y, hy, hpry⟩ := List.mem_flatMap.mp hpr
  by_cases hm : matchesGz y.1
  · obtain ⟨⟨out, hout⟩, hrem⟩ := hok y hy hm
    rw [sweepEntry_match_ok env y out hm hout hrem, List.mem_singleton] at hpry
    rw [hpry]
    exact matchesGz_stripGzPath hm
  · rw [sweepEntry_nonmatch env y (by simpa using hm), List.mem_singleton] at hpry
    rw [hpry]
    simpa using hm

/-- C6 (modelled from the spec; no sweep code exists under src/): on a local
tree whose file paths are distinct and carry no pre-existing sibling at any
strip target, with every matching file decompressing and removing
successfully, the sweep visits every file and: each file whose name matches
".json.gz" ends as a sibling file with the ".gz" extension stripped, holding
exactly the decompressed stream, with the compressed original deleted; files
not matching the suffix are untouched; directories are untouched; and
re-running the sweep on the resulting tree is a no-op. -/
theorem sweep_decompresses_strips_and_idempotent (env : SweepEnv) (fs : FS)
    (hnd : (fs.files.map Prod.fst).Nodup)
    (hok : ∀ e ∈ fs.files, matchesGz e.1 = true →
      (∃ out, env.decompress e.2 = Except.ok out) ∧ env.removeOk e.1 = true)
    (hns : ∀ e ∈ fs.files, ∀ e₂ ∈ fs.files, matchesGz e.1 = true →
      e₂.1 ≠ stripGzPath e.1) :
    (∀ e ∈ fs.files, matchesGz e.1 = true → ∀ out,
      env.decompress e.2 = Except.ok out →
        lookupFile (decompressSweep env fs) (stripGzPath e.1) = some out ∧
        lookupFile (decompressSweep env fs) e.1 = none) ∧
    (∀ e ∈ fs.files, matchesGz e.1 = false →
      lookupFile (decompressSweep env fs) e.1 = some e.2) ∧
    (decompressSweep env fs).dirs = fs.dirs ∧
    decompressSweep env (decompressSweep env fs) = decompressSweep env fs := by
  refine ⟨?_, ?_, rfl, ?_⟩
  · intro e he hm out hout
    exact (sweep_flatMap_lookup env fs.files hnd hok hns e he).1 hm out hout
  · intro e he hm
    exact (sweep_flatMap_lookup env fs.files hnd hok hns e he).2 hm
  · have hfix := sweep_nonmatch_fixpoint env (fs.files.flatMap (sweepEntry env))
      (sweep_output_nonmatch env fs.files hok)
    simp only [decompressSweep]
    rw [hfix]

/-- A sweep environment whose decompressor prepends a 0 byte and whose
removals always succeed. -/
def okSweepEnv : SweepEnv := ⟨fun bs => Except.ok (0 :: bs), fun _ => true⟩

/-- A mirror tree with one compressed file and one plain file. -/
def sweepFS : FS :=
  ⟨[["d"]], [(["d", "x.json.gz"], [1, 2]), (["d", "plain.txt"], [3])]⟩

/-- Witness for C6 at a concrete two-file tree. -/
theorem sweep_decompresses_strips_and_idempotent_witness :
    (∀ e ∈ sweepFS.files, matchesGz e.1 = true → ∀ out,
      okSweepEnv.decompress e.2 = Except.ok out →
        lookupFile (decompressSweep okSweepEnv sweepFS) (stripGzPath e.1) = some out ∧
        lookupFile (decompressSweep okSweepEnv sweepFS) e.1 = none) ∧
    (∀ e ∈ sweepFS.files, matchesGz e.1 = false →
      lookupFile (decompressSweep okSweepEnv sweepFS) e.1 = some e.2) ∧
    (decompressSweep okSweepEnv sweepFS).dirs = sweepFS.dirs ∧
    decompressSweep okSweepEnv (decompressSweep okSweepEnv sweepFS) =
      decompressSweep okSweepEnv sweepFS :=
  sweep_decompresses_strips_and_idempotent okSweepEnv sweepFS (by decide)
    (by
      intro e he hm
      rcases List.mem_cons.mp he with heq | he₂
      · subst heq
        exact ⟨⟨[0, 1, 2], rfl⟩, rfl⟩
      · rcases List.mem_cons.mp he₂ with heq | he₃
        · subst heq
          exact absurd hm (by decide)
        · simp at he₃)
    (by decide)

end S3DL
